import Mathlib

/-!
Verification of the `bstr` shared buffer/string library against its
specification.  Byte sequences are modelled as `List Nat` (each element a
byte value `< 256`); sizes are `Nat` with the `NPOS` sentinel of `size_t`.
The C core functions (`bytes_slice`, `bytes_base64_encode`, ...) are only
declared in `bstr.h`; their behaviour is modelled from the specification.
The C++ wrapper layer (`CStr`, the equality operators, the move
operations) is translated directly from the code in `bstr.h`.
-/

/-- NPOS, alias of a `size_t` value of `-1` (`bstr.h` line 104). -/
def NPOS : Nat := 2 ^ 64 - 1

/-! ## BASE64 codec -/

/-- Modelled from the spec: character of the standard (RFC 4648, non-URL)
BASE64 alphabet at index `n` (`A-Z`, `a-z`, `0-9`, `+`, `/`), as an ASCII
code. -/
def b64char (n : Nat) : Nat :=
  if n < 26 then 65 + n
  else if n < 52 then 97 + (n - 26)
  else if n < 62 then 48 + (n - 52)
  else if n = 62 then 43
  else 47

/-- Modelled from the spec: inverse of the BASE64 alphabet; `none` for a
character outside the alphabet (padding `=` included). -/
def b64index (c : Nat) : Option Nat :=
  if 65 ≤ c ∧ c ≤ 90 then some (c - 65)
  else if 97 ≤ c ∧ c ≤ 122 then some (c - 97 + 26)
  else if 48 ≤ c ∧ c ≤ 57 then some (c - 48 + 52)
  else if c = 43 then some 62
  else if c = 47 then some 63
  else none

/-- Modelled from the spec: `bytes_base64_encode` (declared in `bstr.h`
lines 219-225, implementation not in the repository sources).  Maps every
3 input bytes to 4 output characters of the standard alphabet, with `=`
(ASCII 61) padding for input lengths that are not a multiple of 3. -/
def bytes_base64_encode : List Nat → List Nat
  | [] => []
  | [a] => [b64char (a / 4), b64char (a % 4 * 16), 61, 61]
  | [a, b] => [b64char (a / 4), b64char (a % 4 * 16 + b / 16), b64char (b % 16 * 4), 61]
  | a :: b :: c :: rest =>
      b64char (a / 4) :: b64char (a % 4 * 16 + b / 16) ::
        b64char (b % 16 * 4 + c / 64) :: b64char (c % 64) :: bytes_base64_encode rest

/-- Modelled from the spec: BASE64 decoding of 4-character groups, the
last group possibly padded by `=`; `none` on malformed input. -/
def base64_decodeAux : List Nat → Option (List Nat)
  | [] => some []
  | c1 :: c2 :: c3 :: c4 :: rest =>
    match b64index c1, b64index c2 with
    | some i1, some i2 =>
      if c3 = 61 then
        if c4 = 61 ∧ rest = [] then some [i1 * 4 + i2 / 16] else none
      else
        match b64index c3 with
        | some i3 =>
          if c4 = 61 then
            if rest = [] then some [i1 * 4 + i2 / 16, i2 % 16 * 16 + i3 / 4] else none
          else
            match b64index c4 with
            | some i4 =>
              match base64_decodeAux rest with
              | some tl =>
                  some ((i1 * 4 + i2 / 16) :: (i2 % 16 * 16 + i3 / 4) :: (i3 % 4 * 64 + i4) :: tl)
              | none => none
            | none => none
        | none => none
    | _, _ => none
  | _ => none

/-- Modelled from the spec: `bytes_base64_decode` (declared in `bstr.h`
lines 211-217, implementation not in the repository sources).  Invalid
BASE64 input degrades to an empty byte array. -/
def bytes_base64_decode (s : List Nat) : List Nat :=
  (base64_decodeAux s).getD []

/-! ## UTF-8 validation and transcoding -/

/-- Modelled from the spec: decoding of one UTF-8 encoded scalar value
at the front of a byte sequence (lead byte `b`, remaining bytes `rest`),
returning the scalar value and the bytes left over; `none` on every
ill-formed head: truncated sequence, stray continuation byte, overlong
encoding, surrogate, or value above `U+10FFFF`. -/
def utf8Hd (b : Nat) (rest : List Nat) : Option (Nat × List Nat) :=
  if b < 0x80 then some (b, rest)
  else if b < 0xC2 then none
  else if b < 0xE0 then
    match rest with
    | b2 :: rest2 =>
      if 0x80 ≤ b2 ∧ b2 < 0xC0 then
        some ((b - 0xC0) * 64 + (b2 - 0x80), rest2)
      else none
    | [] => none
  else if b < 0xF0 then
    match rest with
    | b2 :: b3 :: rest3 =>
      if (if b = 0xE0 then 0xA0 ≤ b2 ∧ b2 < 0xC0
          else if b = 0xED then 0x80 ≤ b2 ∧ b2 < 0xA0
          else 0x80 ≤ b2 ∧ b2 < 0xC0) ∧ 0x80 ≤ b3 ∧ b3 < 0xC0 then
        some ((b - 0xE0) * 4096 + (b2 - 0x80) * 64 + (b3 - 0x80), rest3)
      else none
    | _ => none
  else if b < 0xF5 then
    match rest with
    | b2 :: b3 :: b4 :: rest4 =>
      if (if b = 0xF0 then 0x90 ≤ b2 ∧ b2 < 0xC0
          else if b = 0xF4 then 0x80 ≤ b2 ∧ b2 < 0x90
          else 0x80 ≤ b2 ∧ b2 < 0xC0) ∧ 0x80 ≤ b3 ∧ b3 < 0xC0 ∧ 0x80 ≤ b4 ∧ b4 < 0xC0 then
        some ((b - 0xF0) * 262144 + (b2 - 0x80) * 4096 + (b3 - 0x80) * 64 + (b4 - 0x80), rest4)
      else none
    | _ => none
  else none

/-- Decoding loop: decodes scalar values one at a time; the fuel argument
only bounds the recursion depth and is in practice at least the length of
the input, so the `0` case with a non-empty input is never reached. -/
def utf8DecodeFuel : Nat → List Nat → Option (List Nat)
  | _, [] => some []
  | 0, _ :: _ => none
  | f + 1, b :: rest =>
    match utf8Hd b rest with
    | some (cp, tail) => (utf8DecodeFuel f tail).map (cp :: ·)
    | none => none

/-- Modelled from the spec: UTF-8 decoding of a byte sequence into Unicode
scalar values, rejecting (`none`) every ill-formed sequence. -/
def utf8Decode (s : List Nat) : Option (List Nat) := utf8DecodeFuel s.length s

/-- A byte sequence is well-formed UTF-8 when it decodes. -/
def utf8Valid (s : List Nat) : Bool := (utf8Decode s).isSome

/-- Whether `n` is a Unicode scalar value (below `U+110000`, not a
surrogate). -/
def isScalar (n : Nat) : Bool := n < 0x110000 && (n < 0xD800 || 0xE000 ≤ n)

/-- UTF-8 encoding of one Unicode scalar value. -/
def utf8EncodeChar (n : Nat) : List Nat :=
  if n < 0x80 then [n]
  else if n < 0x800 then [0xC0 + n / 64, 0x80 + n % 64]
  else if n < 0x10000 then [0xE0 + n / 4096, 0x80 + n / 64 % 64, 0x80 + n % 64]
  else [0xF0 + n / 262144, 0x80 + n / 4096 % 64, 0x80 + n / 64 % 64, 0x80 + n % 64]

/-- UTF-8 encoding of a sequence of scalar values. -/
def utf8Encode (l : List Nat) : List Nat := (l.map utf8EncodeChar).flatten

/-- Modelled from the spec: `bstr_from_utf8` (declared in `bstr.h` lines
277-285, implementation not in the repository sources): validates that the
input is well-formed UTF-8; on success the string holds the input bytes,
on failure it is the canonical empty string. -/
def bstr_from_utf8 (s : List Nat) : List Nat :=
  if utf8Valid s then s else []

/-! ## UTF-16 / UTF-32 transcoding -/

/-- UTF-16 encoding of one Unicode scalar value: one code unit below
`U+10000`, a surrogate pair above. -/
def utf16EncodeChar (n : Nat) : List Nat :=
  if n < 0x10000 then [n]
  else [0xD800 + (n - 0x10000) / 1024, 0xDC00 + (n - 0x10000) % 1024]

/-- UTF-16 encoding of a sequence of scalar values. -/
def utf16Encode (l : List Nat) : List Nat := (l.map utf16EncodeChar).flatten

/-- Modelled from the spec: decoding of one scalar value at the front of
a UTF-16 code-unit sequence: a unit outside the surrogate range stands
for itself, a high surrogate must be immediately followed by a low
surrogate, and any unpaired surrogate or truncated sequence is invalid
(`none`). -/
def utf16Hd (u : Nat) (rest : List Nat) : Option (Nat × List Nat) :=
  if u < 0xD800 ∨ (0xE000 ≤ u ∧ u < 0x10000) then some (u, rest)
  else if u < 0xDC00 then
    match rest with
    | u2 :: rest2 =>
      if 0xDC00 ≤ u2 ∧ u2 < 0xE000 then
        some (0x10000 + (u - 0xD800) * 1024 + (u2 - 0xDC00), rest2)
      else none
    | [] => none
  else none

/-- UTF-16 decoding loop; the fuel argument only bounds the recursion
depth and is at least the number of code units in practice. -/
def utf16DecodeFuel : Nat → List Nat → Option (List Nat)
  | _, [] => some []
  | 0, _ :: _ => none
  | f + 1, u :: rest =>
    match utf16Hd u rest with
    | some (cp, tail) => (utf16DecodeFuel f tail).map (cp :: ·)
    | none => none

/-- Modelled from the spec: UTF-16 decoding; any unpaired surrogate or
truncated sequence makes the whole input invalid. -/
def utf16Decode (s : List Nat) : Option (List Nat) := utf16DecodeFuel s.length s

/-- Modelled from the spec: UTF-32 decoding; every 32-bit unit must be a
Unicode scalar value, otherwise the input is invalid (`none`). -/
def utf32Decode : List Nat → Option (List Nat)
  | [] => some []
  | u :: rest => if isScalar u then (utf32Decode rest).map (u :: ·) else none

/-- Scan caller-supplied memory up to (and excluding) the first zero code
unit, the meaning of the `NPOS` length sentinel. -/
def scanToZero (mem : List Nat) : List Nat := mem.takeWhile (fun x => x != 0)

/-- Modelled from the spec: `bstr_dup_utf16` (declared in `bstr.h` lines
338-345, implementation not in the repository sources): converts the
already-valid UTF-8 string to UTF-16 and null-terminates the output. -/
def bstr_dup_utf16 (s : List Nat) : List Nat :=
  match utf8Decode s with
  | some cps => utf16Encode cps ++ [0]
  | none => [0]

/-- Modelled from the spec: `bstr_dup_utf32` (declared in `bstr.h` lines
347-354, implementation not in the repository sources): converts the
already-valid UTF-8 string to UTF-32 and null-terminates the output. -/
def bstr_dup_utf32 (s : List Nat) : List Nat :=
  match utf8Decode s with
  | some cps => cps ++ [0]
  | none => [0]

/-- Modelled from the spec: `bstr_from_utf16` (declared in `bstr.h` lines
287-295, implementation not in the repository sources): `len == NPOS`
means the input is terminated by a zero code unit; invalid UTF-16
degrades to the canonical empty string. -/
def bstr_from_utf16 (mem : List Nat) (len : Nat) : List Nat :=
  let units := if len = NPOS then scanToZero mem else mem.take len
  match utf16Decode units with
  | some cps => utf8Encode cps
  | none => []

/-- Modelled from the spec: `bstr_from_utf32` (declared in `bstr.h` lines
297-305, implementation not in the repository sources): `len == NPOS`
means the input is terminated by a zero code unit; invalid UTF-32
degrades to the canonical empty string. -/
def bstr_from_utf32 (mem : List Nat) (len : Nat) : List Nat :=
  let units := if len = NPOS then scanToZero mem else mem.take len
  match utf32Decode units with
  | some cps => utf8Encode cps
  | none => []

/-! ## Slicing -/

/-- Modelled from the spec: `bytes_slice` (declared in `bstr.h` lines
177-186, implementation not in the repository sources): `stop == NPOS`
means "to end", both bounds are clamped into `[0, length]`, and the
resulting view holds the bytes of `[start, stop)`. -/
def bytes_slice (b : List Nat) (start stop : Nat) : List Nat :=
  (b.drop (min start b.length)).take
    ((if stop = NPOS then b.length else min stop b.length) - min start b.length)

/-! ## Storage cells, clone and release -/

/-- A storage cell: immutable byte payload, reference count, ownership
tag (`owned = true` for `Owned`, `false` for `Borrowed`). -/
structure Cell where
  data : List Nat
  count : Nat
  owned : Bool
deriving DecidableEq

/-- The heap: a vector of cell slots; `none` is a freed slot. -/
abbrev Heap := List (Option Cell)

/-- A buffer/string handle: optional storage-cell index plus offset and
length; `none` is the canonical empty value. -/
structure Handle where
  cell : Option Nat
  off : Nat
  len : Nat
deriving DecidableEq

/-- The canonical empty handle (`bytes_init` / `bstr_init`). -/
def emptyHandle : Handle := ⟨none, 0, 0⟩

/-- Cell slot lookup. -/
def Heap.cellAt (h : Heap) (i : Nat) : Option Cell := h.getD i none

/-- `bytes_size`: the handle's stored length. -/
def bytes_size (b : Handle) : Nat := b.len

/-- The byte content visible through a handle (`none` when the handle
dangles into a freed slot). -/
def readBytes (h : Heap) (b : Handle) : Option (List Nat) :=
  match b.cell with
  | none => some []
  | some i => (h.cellAt i).map (fun c => (c.data.drop b.off).take b.len)

/-- Modelled from the spec: `bytes_clone` (declared in `bstr.h` lines
188-194, implementation not in the repository sources): increments the
cell's reference count and returns an equivalent handle. -/
def bytes_clone (h : Heap) (b : Handle) : Heap × Handle :=
  match b.cell with
  | none => (h, b)
  | some i =>
    match h.cellAt i with
    | none => (h, b)
    | some c => (h.set i (some { c with count := c.count + 1 }), b)

/-- Modelled from the spec: `bytes_release` (declared in `bstr.h` lines
196-201, implementation not in the repository sources): decrements the
reference count, frees an `Owned` cell when the count reaches zero, and
leaves the handle in the tagged empty state. -/
def bytes_release (h : Heap) (b : Handle) : Heap × Handle :=
  match b.cell with
  | none => (h, emptyHandle)
  | some i =>
    match h.cellAt i with
    | none => (h, emptyHandle)
    | some c =>
      if c.count ≤ 1 then
        (h.set i (if c.owned then none else some { c with count := 0 }), emptyHandle)
      else
        (h.set i (some { c with count := c.count - 1 }), emptyHandle)

/-- Modelled from the spec: `bstr_release` (declared in `bstr.h` lines
315-320, implementation not in the repository sources); identical
refcount discipline as `bytes_release`. -/
def bstr_release (h : Heap) (b : Handle) : Heap × Handle := bytes_release h b

/-! ## Value equality operators (translated from `bstr.h`) -/

/-- `memcmp(p, q, n) == 0` over byte lists that both hold at least `n`
readable bytes. -/
def memcmpEqZero (a b : List Nat) (n : Nat) : Bool := a.take n == b.take n

/-- `Bytes::operator==(const Bytes&)` (`bstr.h` lines 658-661): length
comparison followed by `memcmp` of the whole range. -/
def bytesEqOp (a b : List Nat) : Bool :=
  (a.length == b.length) && memcmpEqZero a b a.length

/-- `ByteString::operator==(const ByteString&)` (`bstr.h` lines 927-930):
length comparison followed by `memcmp` of the whole range. -/
def bstrEqOp (s t : List Nat) : Bool :=
  (s.length == t.length) && memcmpEqZero s t s.length

/-- `strncmp(a, b, n) == 0`: compares at most `n` bytes, stopping early at
a difference or at a null byte present in both operands.  Running out of
readable bytes is an out-of-bounds access in C; the model returns `false`
there. -/
def cstrncmpEqZero : List Nat → List Nat → Nat → Bool
  | _, _, 0 => true
  | a :: as, b :: bs, n + 1 =>
    if a = b then (if a = 0 then true else cstrncmpEqZero as bs n) else false
  | _, _, _ + 1 => false

/-- The character content of a C string stored in memory `mem`: the bytes
before the first null byte. -/
def cstrContent (mem : List Nat) : List Nat := mem.takeWhile (fun x => x != 0)

/-- `strlen` over memory `mem`. -/
def cstrlen (mem : List Nat) : Nat := (cstrContent mem).length

/-- `ByteString::operator==(const char*)` (`bstr.h` lines 937-940):
`strncmp(ptr(), other, len) == 0 && other[len] == 0`, where `other` is the
readable memory at the C-string pointer (an out-of-bounds `other[len]`
reads the default `1`, an arbitrary non-null byte). -/
def bstrEqCStrOp (s other : List Nat) : Bool :=
  cstrncmpEqZero s other s.length && (other.getD s.length 1 == 0)

/-! ## CStr (translated from `bstr.h` lines 411-510) -/

/-- The value of `CStr::m_str`: the null pointer, the tagged static empty
buffer returned by `EMPTY_STR()` (address with the low bit set), or a
heap allocation holding the given bytes. -/
inductive CPtr where
  | null : CPtr
  | emptyTagged : CPtr
  | heap : List Nat → CPtr
deriving DecidableEq

/-- The null-terminated buffer a `CPtr` points at (`none` for the null
pointer; the tagged empty pointer points at a zero byte of the static
buffer). -/
def CPtr.buffer : CPtr → Option (List Nat)
  | .null => none
  | .emptyTagged => some [0]
  | .heap d => some d

/-- Whether the pointer has its low tag bit set (the static empty
buffer). -/
def CPtr.tagged : CPtr → Bool
  | .emptyTagged => true
  | _ => false

/-- Whether a `CPtr` points at a null-terminated character sequence. -/
def nullTerminated : CPtr → Bool
  | .null => false
  | .emptyTagged => true
  | .heap d => d.getLast? == some 0

namespace CStr

/-- `CStr::_allocate` (`bstr.h` lines 485-500): `none` models a NULL
source pointer, otherwise `mem` is the readable memory at the source;
`len == NPOS` scans for the null terminator, a zero length yields the
tagged static empty string, and a heap copy is null-terminated. -/
def _allocate (s : Option (List Nat)) (len : Nat) : CPtr :=
  match s with
  | none => CPtr.emptyTagged
  | some mem =>
    let n := if len = NPOS then cstrlen mem else len
    if 0 < n then CPtr.heap (mem.take n ++ [0]) else CPtr.emptyTagged

/-- `CStr::_deallocate` (`bstr.h` lines 502-507): frees the pointer only
when its tag bit is clear, then resets it to the tagged empty string; the
boolean reports whether heap memory was actually freed (`delete[]` of a
null pointer frees nothing). -/
def _deallocate : CPtr → CPtr × Bool
  | .null => (CPtr.emptyTagged, false)
  | .emptyTagged => (CPtr.emptyTagged, false)
  | .heap _ => (CPtr.emptyTagged, true)

end CStr

/-- Modelled from the spec: `bstr_from_static` (declared in `bstr.h`
lines 258-266, implementation not in the repository sources): borrows the
static memory without copying; `len == NPOS` scans for the null
terminator. -/
def bstr_from_static (mem : List Nat) (len : Nat) : List Nat :=
  if len = NPOS then cstrContent mem else mem.take len

/-! ## Move operations (translated from `bstr.h`) -/

/-- `bytes_swap` / `bstr_swap`: exchange two handle values. -/
def bytes_swap (a b : Handle) : Handle × Handle := (b, a)

/-- `Bytes::Bytes(Bytes&&)` (`bstr.h` line 700): the new object takes the
source's handle (`m_inner(other.m_inner)`) and the source is
re-initialized to the empty value (`bytes_init`).  Returns
`(new object, source after the move)`; the heap is untouched (no release
is performed). -/
def Bytes.moveCtor (st : Heap) (other : Handle) : Heap × Handle × Handle :=
  (st, other, emptyHandle)

/-- `Bytes::operator=(Bytes&&)` (`bstr.h` lines 709-714): when the two
objects are distinct the handles are swapped via `bytes_swap`, a self
move-assignment is a no-op.  `sameObj` is the `this != &other` identity
test.  Returns `(heap, self after, other after)`; the heap is untouched
(no release is performed). -/
def Bytes.moveAssign (st : Heap) (self other : Handle) (sameObj : Bool) :
    Heap × Handle × Handle :=
  if sameObj then (st, self, other)
  else
    let (a, b) := bytes_swap self other
    (st, a, b)

/-- `ByteString::ByteString(ByteString&&)` (`bstr.h` line 956); same shape
as the `Bytes` move constructor. -/
def ByteString.moveCtor (st : Heap) (other : Handle) : Heap × Handle × Handle :=
  (st, other, emptyHandle)

/-- `ByteString::operator=(ByteString&&)` (`bstr.h` lines 964-969); same
shape as the `Bytes` move assignment, using `bstr_swap`. -/
def ByteString.moveAssign (st : Heap) (self other : Handle) (sameObj : Bool) :
    Heap × Handle × Handle :=
  if sameObj then (st, self, other)
  else
    let (a, b) := bytes_swap self other
    (st, a, b)

/-! ## BASE64 lemmas -/


/-! ## UTF-8 / UTF-16 / UTF-32 lemmas -/

theorem utf8EncodeChar_1 (n : Nat) (h : n < 0x80) : utf8EncodeChar n = [n] := by
  simp only [utf8EncodeChar]; rw [if_pos h]

theorem utf8EncodeChar_2 (n : Nat) (h1 : 0x80 ≤ n) (h2 : n < 0x800) :
    utf8EncodeChar n = [0xC0 + n / 64, 0x80 + n % 64] := by
  simp only [utf8EncodeChar]; rw [if_neg (by omega), if_pos h2]

theorem utf8EncodeChar_3 (n : Nat) (h1 : 0x800 ≤ n) (h2 : n < 0x10000) :
    utf8EncodeChar n = [0xE0 + n / 4096, 0x80 + n / 64 % 64, 0x80 + n % 64] := by
  simp only [utf8EncodeChar]; rw [if_neg (by omega), if_neg (by omega), if_pos h2]

theorem utf8EncodeChar_4 (n : Nat) (h : 0x10000 ≤ n) :
    utf8EncodeChar n =
      [0xF0 + n / 262144, 0x80 + n / 4096 % 64, 0x80 + n / 64 % 64, 0x80 + n % 64] := by
  simp only [utf8EncodeChar]
  rw [if_neg (by omega), if_neg (by omega), if_neg (by omega)]

theorem utf8Hd_sound (b : Nat) (rest : List Nat) (cp : Nat) (tail : List Nat)
    (h : utf8Hd b rest = some (cp, tail)) :
    isScalar cp = true ∧ utf8EncodeChar cp ++ tail = b :: rest ∧
      (cp = 0 → b = 0) ∧ tail.length ≤ rest.length := by
  by_cases h80 : b < 0x80
  · simp only [utf8Hd, if_pos h80, Option.some.injEq, Prod.mk.injEq] at h
    obtain ⟨rfl, rfl⟩ := h
    refine ⟨by simp [isScalar]; omega, ?_, fun hz => hz, le_refl _⟩
    rw [utf8EncodeChar_1 _ h80]; rfl
  by_cases hC2 : b < 0xC2
  · simp only [utf8Hd, if_neg h80, if_pos hC2] at h
    exact absurd h (by simp)
  by_cases hE0 : b < 0xE0
  · rcases rest with _ | ⟨b2, rest2⟩
    · simp only [utf8Hd, if_neg h80, if_neg hC2, if_pos hE0] at h
      exact absurd h (by simp)
    · simp only [utf8Hd, if_neg h80, if_neg hC2, if_pos hE0] at h
      by_cases hcont : 0x80 ≤ b2 ∧ b2 < 0xC0
      · rw [if_pos hcont] at h
        simp only [Option.some.injEq, Prod.mk.injEq] at h
        obtain ⟨rfl, rfl⟩ := h
        refine ⟨by simp [isScalar]; omega, ?_, by omega,
          by simp only [List.length_cons]; omega⟩
        rw [utf8EncodeChar_2 _ (by omega) (by omega)]
        simp only [List.cons_append, List.nil_append, List.cons.injEq,
          eq_self_iff_true, and_true]
        omega
      · rw [if_neg hcont] at h
        exact absurd h (by simp)
  by_cases hF0 : b < 0xF0
  · rcases rest with _ | ⟨b2, _ | ⟨b3, rest3⟩⟩
    · simp only [utf8Hd, if_neg h80, if_neg hC2, if_neg hE0, if_pos hF0] at h
      exact absurd h (by simp)
    · simp only [utf8Hd, if_neg h80, if_neg hC2, if_neg hE0, if_pos hF0] at h
      exact absurd h (by simp)
    · simp only [utf8Hd, if_neg h80, if_neg hC2, if_neg hE0, if_pos hF0] at h
      by_cases hcont : (if b = 0xE0 then 0xA0 ≤ b2 ∧ b2 < 0xC0
          else if b = 0xED then 0x80 ≤ b2 ∧ b2 < 0xA0
          else 0x80 ≤ b2 ∧ b2 < 0xC0) ∧ 0x80 ≤ b3 ∧ b3 < 0xC0
      · rw [if_pos hcont] at h
        have hb2 : 0x80 ≤ b2 ∧ b2 < 0xC0 ∧ (b = 0xE0 → 0xA0 ≤ b2) ∧
            (b = 0xED → b2 < 0xA0) := by
          obtain ⟨hc1, _⟩ := hcont
          split_ifs at hc1 <;> omega
        obtain ⟨_, hb3⟩ := hcont
        simp only [Option.some.injEq, Prod.mk.injEq] at h
        obtain ⟨rfl, rfl⟩ := h
        refine ⟨by simp [isScalar]; omega, ?_, by omega,
          by simp only [List.length_cons]; omega⟩
        rw [utf8EncodeChar_3 _ (by omega) (by omega)]
        simp only [List.cons_append, List.nil_append, List.cons.injEq,
          eq_self_iff_true, and_true]
        omega
      · rw [if_neg hcont] at h
        exact absurd h (by simp)
  by_cases hF5 : b < 0xF5
  · rcases rest with _ | ⟨b2, _ | ⟨b3, _ | ⟨b4, rest4⟩⟩⟩
    · simp only [utf8Hd, if_neg h80, if_neg hC2, if_neg hE0, if_neg hF0, if_pos hF5] at h
      exact absurd h (by simp)
    · simp only [utf8Hd, if_neg h80, if_neg hC2, if_neg hE0, if_neg hF0, if_pos hF5] at h
      exact absurd h (by simp)
    · simp only [utf8Hd, if_neg h80, if_neg hC2, if_neg hE0, if_neg hF0, if_pos hF5] at h
      exact absurd h (by simp)
    · simp only [utf8Hd, if_neg h80, if_neg hC2, if_neg hE0, if_neg hF0, if_pos hF5] at h
      by_cases hcont : (if b = 0xF0 then 0x90 ≤ b2 ∧ b2 < 0xC0
          else if b = 0xF4 then 0x80 ≤ b2 ∧ b2 < 0x90
          else 0x80 ≤ b2 ∧ b2 < 0xC0) ∧ 0x80 ≤ b3 ∧ b3 < 0xC0 ∧ 0x80 ≤ b4 ∧ b4 < 0xC0
      · rw [if_pos hcont] at h
        have hb2 : 0x80 ≤ b2 ∧ b2 < 0xC0 ∧ (b = 0xF0 → 0x90 ≤ b2) ∧
            (b = 0xF4 → b2 < 0x90) := by
          obtain ⟨hc1, _⟩ := hcont
          split_ifs at hc1 <;> omega
        obtain ⟨_, hb3, hb4⟩ := hcont
        simp only [Option.some.injEq, Prod.mk.injEq] at h
        obtain ⟨rfl, rfl⟩ := h
        refine ⟨by simp [isScalar]; omega, ?_, by omega,
          by simp only [List.length_cons]; omega⟩
        rw [utf8EncodeChar_4 _ (by omega)]
        simp only [List.cons_append, List.nil_append, List.cons.injEq,
          eq_self_iff_true, and_true]
        omega
      · rw [if_neg hcont] at h
        exact absurd h (by simp)
  · simp only [utf8Hd, if_neg h80, if_neg hC2, if_neg hE0, if_neg hF0, if_neg hF5] at h
    exact absurd h (by simp)

theorem utf8Encode_cons (c : Nat) (l : List Nat) :
    utf8Encode (c :: l) = utf8EncodeChar c ++ utf8Encode l := by
  simp [utf8Encode]

theorem utf8DecodeFuel_sound (f : Nat) :
    ∀ s cps, utf8DecodeFuel f s = some cps →
      utf8Encode cps = s ∧ (∀ c ∈ cps, isScalar c = true) ∧ (0 ∈ cps → 0 ∈ s) := by
  induction f with
  | zero =>
    intro s cps h
    cases s with
    | nil =>
      simp only [utf8DecodeFuel, Option.some.injEq] at h
      subst h
      exact ⟨rfl, by simp, by simp⟩
    | cons b rest => exact absurd h (by simp [utf8DecodeFuel])
  | succ f ih =>
    intro s cps h
    cases s with
    | nil =>
      simp only [utf8DecodeFuel, Option.some.injEq] at h
      subst h
      exact ⟨rfl, by simp, by simp⟩
    | cons b rest =>
      simp only [utf8DecodeFuel] at h
      cases hu : utf8Hd b rest with
      | none => rw [hu] at h; exact absurd h (by simp)
      | some pr =>
        obtain ⟨cp, tail⟩ := pr
        rw [hu] at h
        simp only [Option.map_eq_some'] at h
        obtain ⟨cps', hdec, rfl⟩ := h
        obtain ⟨henc, hsc, hz⟩ := ih tail cps' hdec
        obtain ⟨hscalar, hbytes, hzero, _⟩ := utf8Hd_sound b rest cp tail hu
        refine ⟨?_, ?_, ?_⟩
        · rw [utf8Encode_cons, henc, hbytes]
        · intro c hc
          rcases List.mem_cons.mp hc with rfl | hc'
          · exact hscalar
          · exact hsc c hc'
        · intro h0
          rcases List.mem_cons.mp h0 with h0' | h0'
          · have hb0 : b = 0 := hzero h0'.symm
            rw [hb0]
            exact List.mem_cons_self _ _
          · rw [← hbytes]
            exact List.mem_append_right _ (hz h0')

theorem utf8Decode_sound (s cps : List Nat) (h : utf8Decode s = some cps) :
    utf8Encode cps = s ∧ (∀ c ∈ cps, isScalar c = true) ∧ (0 ∈ cps → 0 ∈ s) :=
  utf8DecodeFuel_sound s.length s cps h

theorem utf8DecodeFuel_ascii (f : Nat) :
    ∀ s, s.length ≤ f → (∀ x ∈ s, x < 128) → utf8DecodeFuel f s = some s := by
  induction f with
  | zero =>
    intro s hf _
    cases s with
    | nil => rfl
    | cons b rest => simp at hf
  | succ f ih =>
    intro s hf ha
    cases s with
    | nil => rfl
    | cons b rest =>
      have hb : b < 128 := ha b (by simp)
      have hlen : rest.length ≤ f := by simp at hf; omega
      simp only [utf8DecodeFuel, utf8Hd, if_pos hb]
      rw [ih rest hlen fun x hx => ha x (by simp [hx])]
      rfl

theorem utf8Valid_of_ascii (s : List Nat) (h : ∀ x ∈ s, x < 128) :
    utf8Valid s = true := by
  simp only [utf8Valid, utf8Decode, utf8DecodeFuel_ascii s.length s (le_refl _) h,
    Option.isSome_some]

theorem utf16Encode_cons (c : Nat) (l : List Nat) :
    utf16Encode (c :: l) = utf16EncodeChar c ++ utf16Encode l := by
  simp [utf16Encode]

theorem utf16Encode_length_ge (cps : List Nat) :
    cps.length ≤ (utf16Encode cps).length := by
  induction cps with
  | nil => simp [utf16Encode]
  | cons c l ih =>
    rw [utf16Encode_cons]
    simp only [List.length_cons, List.length_append, utf16EncodeChar]
    split_ifs <;> simp <;> omega

theorem utf16DecodeFuel_step (f u cp : Nat) (rest tail : List Nat)
    (h : utf16Hd u rest = some (cp, tail)) :
    utf16DecodeFuel (f + 1) (u :: rest) = (utf16DecodeFuel f tail).map (cp :: ·) := by
  show (match utf16Hd u rest with
        | some (cp, tail) => (utf16DecodeFuel f tail).map (cp :: ·)
        | none => none) = (utf16DecodeFuel f tail).map (cp :: ·)
  rw [h]

theorem utf16Hd_pair (c : Nat) (X : List Nat) (h16 : ¬ c < 0x10000)
    (hsc : c < 0x110000) :
    utf16Hd (0xD800 + (c - 0x10000) / 1024)
        ((0xDC00 + (c - 0x10000) % 1024) :: X) = some (c, X) := by
  simp only [utf16Hd]
  rw [if_neg (by omega), if_pos (by omega), if_pos (by constructor <;> omega)]
  simp only [Option.some.injEq, Prod.mk.injEq]
  exact ⟨by omega, trivial⟩

theorem utf16DecodeFuel_encode (f : Nat) :
    ∀ cps, cps.length ≤ f → (∀ c ∈ cps, isScalar c = true) →
      utf16DecodeFuel f (utf16Encode cps) = some cps := by
  induction f with
  | zero =>
    intro cps hf _
    cases cps with
    | nil => rfl
    | cons c l => simp at hf
  | succ f ih =>
    intro cps hf hs
    cases cps with
    | nil => rfl
    | cons c cps2 =>
      have hc : isScalar c = true := hs c (by simp)
      have hsc : c < 0x110000 ∧ (c < 0xD800 ∨ 0xE000 ≤ c) := by
        simpa [isScalar] using hc
      have hrest : ∀ x ∈ cps2, isScalar x = true := fun x hx => hs x (by simp [hx])
      have hlen : cps2.length ≤ f := by simp at hf; omega
      rw [utf16Encode_cons]
      by_cases h16 : c < 0x10000
      · rw [show utf16EncodeChar c = [c] from by simp [utf16EncodeChar, if_pos h16]]
        show utf16DecodeFuel (f + 1) (c :: utf16Encode cps2) = some (c :: cps2)
        rw [utf16DecodeFuel_step _ _ _ _ _ (show utf16Hd c (utf16Encode cps2) =
          some (c, utf16Encode cps2) from by
            simp only [utf16Hd]; rw [if_pos (by omega)])]
        rw [ih cps2 hlen hrest]
        rfl
      · rw [show utf16EncodeChar c =
            [0xD800 + (c - 0x10000) / 1024, 0xDC00 + (c - 0x10000) % 1024] from by
          simp only [utf16EncodeChar]; rw [if_neg h16]]
        show utf16DecodeFuel (f + 1) ((0xD800 + (c - 0x10000) / 1024) ::
          (0xDC00 + (c - 0x10000) % 1024) :: utf16Encode cps2) = some (c :: cps2)
        rw [utf16DecodeFuel_step _ _ _ _ _ (utf16Hd_pair c (utf16Encode cps2) h16 hsc.1)]
        rw [ih cps2 hlen hrest]
        rfl

theorem utf16Decode_encode (cps : List Nat) (hs : ∀ c ∈ cps, isScalar c = true) :
    utf16Decode (utf16Encode cps) = some cps :=
  utf16DecodeFuel_encode _ cps (utf16Encode_length_ge cps) hs

theorem utf16Encode_no_zero (cps : List Nat) (hs : ∀ c ∈ cps, isScalar c = true)
    (h0 : 0 ∉ cps) : ∀ u ∈ utf16Encode cps, u ≠ 0 := by
  induction cps with
  | nil => simp [utf16Encode]
  | cons c cps2 ih =>
    intro u hu
    rw [utf16Encode_cons] at hu
    rcases List.mem_append.mp hu with hu1 | hu2
    · have hc0 : c ≠ 0 := fun hc => h0 (by simp [hc])
      simp only [utf16EncodeChar] at hu1
      split_ifs at hu1
      · simp at hu1; omega
      · simp at hu1; omega
    · exact ih (fun x hx => hs x (by simp [hx])) (fun hx => h0 (by simp [hx])) u hu2

theorem scanToZero_append (l : List Nat) (h : ∀ u ∈ l, u ≠ 0) :
    scanToZero (l ++ [0]) = l := by
  induction l with
  | nil => simp [scanToZero]
  | cons a l ih =>
    have ha : a ≠ 0 := h a (by simp)
    simp only [scanToZero, List.cons_append, List.takeWhile_cons] at ih ⊢
    rw [if_pos (by simpa using ha)]
    rw [ih fun u hu => h u (by simp [hu])]

theorem utf32Decode_id (cps : List Nat) (hs : ∀ c ∈ cps, isScalar c = true) :
    utf32Decode cps = some cps := by
  induction cps with
  | nil => rfl
  | cons c cps2 ih =>
    have hc : isScalar c = true := hs c (by simp)
    simp only [utf32Decode, if_pos hc]
    rw [ih fun x hx => hs x (by simp [hx])]
    rfl

theorem utf32Encode_no_zero (cps : List Nat) (h0 : 0 ∉ cps) : ∀ u ∈ cps, u ≠ 0 :=
  fun _ hu hz => h0 (hz ▸ hu)

/-- C3: from_utf8 returns the canonical empty string (length 0) on every
byte sequence that is not well-formed UTF-8, in particular on
`[0xFF, 0xFE]`; on well-formed input it returns a string whose bytes
equal the input. -/
theorem bstr_from_utf8_spec :
    (∀ s, utf8Valid s = false → bstr_from_utf8 s = []) ∧
    bstr_from_utf8 [0xFF, 0xFE] = [] ∧ (bstr_from_utf8 [0xFF, 0xFE]).length = 0 ∧
    (∀ s, utf8Valid s = true → bstr_from_utf8 s = s) :=
  ⟨fun s h => by simp [bstr_from_utf8, h], by decide, by decide,
   fun s h => by simp [bstr_from_utf8, h]⟩

/-- C3 witness: `from_utf8` on the invalid input `[0xFF]` yields the empty
string and on the valid ASCII input `[104, 105]` yields the input. -/
theorem bstr_from_utf8_spec_witness :
    bstr_from_utf8 [255] = [] ∧ bstr_from_utf8 [104, 105] = [104, 105] :=
  ⟨bstr_from_utf8_spec.1 [255] (by decide), bstr_from_utf8_spec.2.2.2 [104, 105] (by decide)⟩

/-- C6 (amended): for every valid UTF-8 string that contains no NUL byte,
converting to a null-terminated UTF-16 buffer with dup_utf16 and back
with from_utf16 (length computed by scanning for the zero terminator)
yields the original string, and likewise for dup_utf32/from_utf32. -/
theorem utf_dup_roundtrip (s : List Nat) (hv : utf8Valid s = true) (h0 : 0 ∉ s) :
    bstr_from_utf16 (bstr_dup_utf16 s) NPOS = s ∧
    bstr_from_utf32 (bstr_dup_utf32 s) NPOS = s := by
  obtain ⟨cps, hdec⟩ := Option.isSome_iff_exists.mp hv
  obtain ⟨henc, hsc, hz⟩ := utf8Decode_sound s cps hdec
  have h0c : 0 ∉ cps := fun hm => h0 (hz hm)
  constructor
  · simp only [bstr_dup_utf16, hdec, bstr_from_utf16, eq_self_iff_true, ite_true]
    rw [scanToZero_append _ (utf16Encode_no_zero cps hsc h0c)]
    rw [utf16Decode_encode cps hsc]
    exact henc
  · simp only [bstr_dup_utf32, hdec, bstr_from_utf32, eq_self_iff_true, ite_true]
    rw [scanToZero_append _ (utf32Encode_no_zero cps h0c)]
    rw [utf32Decode_id cps hsc]
    exact henc

/-- C6 witness, Scenario B: the 6-byte UTF-8 string "héllo" survives both
round trips. -/
theorem utf_dup_roundtrip_witness :
    bstr_from_utf16 (bstr_dup_utf16 [104, 195, 169, 108, 108, 111]) NPOS =
      [104, 195, 169, 108, 108, 111] ∧
    bstr_from_utf32 (bstr_dup_utf32 [104, 195, 169, 108, 108, 111]) NPOS =
      [104, 195, 169, 108, 108, 111] :=
  utf_dup_roundtrip [104, 195, 169, 108, 108, 111] (by decide) (by decide)

/-- C6 counterexample: the single NUL byte is a valid UTF-8 string, but
the null-terminated dup/from round trip truncates it to the empty string,
so the round trip does not hold for every valid UTF-8 string. -/
theorem utf_dup_roundtrip_counterexample :
    utf8Valid [0] = true ∧ bstr_from_utf16 (bstr_dup_utf16 [0]) NPOS ≠ [0] := by
  constructor
  · decide
  · decide

/-! ## BASE64 lemmas -/

theorem b64_alphabet_inv : ∀ m : Fin 64, b64index (b64char m.val) = some m.val := by decide

theorem b64index_b64char {n : Nat} (h : n < 64) : b64index (b64char n) = some n :=
  b64_alphabet_inv ⟨n, h⟩

theorem b64char_ne_61 (n : Nat) : b64char n ≠ 61 := by
  unfold b64char; split_ifs <;> omega

theorem b64char_lt_128 (n : Nat) : b64char n < 128 := by
  unfold b64char; split_ifs <;> omega

theorem base64_decodeAux_encode (d : List Nat) (h : ∀ x ∈ d, x < 256) :
    base64_decodeAux (bytes_base64_encode d) = some d := by
  induction d using bytes_base64_encode.induct with
  | case1 => simp [bytes_base64_encode, base64_decodeAux]
  | case2 a =>
    have ha : a < 256 := h a (by simp)
    simp [bytes_base64_encode, base64_decodeAux,
      b64index_b64char (show a / 4 < 64 by omega),
      b64index_b64char (show a % 4 * 16 < 64 by omega)]
    omega
  | case3 a b =>
    have ha : a < 256 := h a (by simp)
    have hb : b < 256 := h b (by simp)
    simp [bytes_base64_encode, base64_decodeAux,
      b64index_b64char (show a / 4 < 64 by omega),
      b64index_b64char (show a % 4 * 16 + b / 16 < 64 by omega),
      b64index_b64char (show b % 16 * 4 < 64 by omega),
      b64char_ne_61]
    omega
  | case4 a b c rest ih =>
    have ha : a < 256 := h a (by simp)
    have hb : b < 256 := h b (by simp)
    have hc : c < 256 := h c (by simp)
    have hrest : ∀ x ∈ rest, x < 256 := fun x hx => h x (by simp [hx])
    simp [bytes_base64_encode, base64_decodeAux,
      b64index_b64char (show a / 4 < 64 by omega),
      b64index_b64char (show a % 4 * 16 + b / 16 < 64 by omega),
      b64index_b64char (show b % 16 * 4 + c / 64 < 64 by omega),
      b64index_b64char (show c % 64 < 64 by omega),
      b64char_ne_61, ih hrest]
    omega

theorem bytes_base64_encode_length (d : List Nat) :
    (bytes_base64_encode d).length = 4 * ((d.length + 2) / 3) := by
  induction d using bytes_base64_encode.induct with
  | case1 => simp [bytes_base64_encode]
  | case2 a => simp [bytes_base64_encode]
  | case3 a b => simp [bytes_base64_encode]
  | case4 a b c rest ih => simp [bytes_base64_encode, ih]; omega

theorem bytes_base64_encode_ascii (d : List Nat) :
    ∀ x ∈ bytes_base64_encode d, x < 128 := by
  induction d using bytes_base64_encode.induct with
  | case1 => simp [bytes_base64_encode]
  | case2 a => simp [bytes_base64_encode, b64char_lt_128]
  | case3 a b => simp [bytes_base64_encode, b64char_lt_128]
  | case4 a b c rest ih =>
    simp [bytes_base64_encode, b64char_lt_128]
    exact ih

/-- C1: decoding the BASE64 encoding of any byte sequence returns the
sequence; the encoding maps every 3 input bytes to 4 output characters
with `=` padding (so the output length is `4 * ceil(len / 3)`), and the
encoded output is ASCII-only, hence valid UTF-8. -/
theorem base64_roundtrip (d : List Nat) (h : ∀ x ∈ d, x < 256) :
    bytes_base64_decode (bytes_base64_encode d) = d ∧
    (∀ x ∈ bytes_base64_encode d, x < 128) ∧
    utf8Valid (bytes_base64_encode d) = true ∧
    (bytes_base64_encode d).length = 4 * ((d.length + 2) / 3) := by
  refine ⟨?_, bytes_base64_encode_ascii d, ?_, bytes_base64_encode_length d⟩
  · rw [bytes_base64_decode, base64_decodeAux_encode d h]
    rfl
  · exact utf8Valid_of_ascii _ (bytes_base64_encode_ascii d)

/-- C1 witness, Scenario C: `base64_encode([0x00, 0x01, 0x02])` decodes
back to `[0x00, 0x01, 0x02]` and is a valid UTF-8 string. -/
theorem base64_roundtrip_witness :
    bytes_base64_decode (bytes_base64_encode [0, 1, 2]) = [0, 1, 2] ∧
    utf8Valid (bytes_base64_encode [0, 1, 2]) = true :=
  ⟨(base64_roundtrip [0, 1, 2] (by decide)).1,
   (base64_roundtrip [0, 1, 2] (by decide)).2.2.1⟩

/-! ## Slicing, clone/release and CStr theorems -/

/-- C2: for in-range bounds the slice has length `stop - start` and holds
b's bytes of `[start, stop)`; `slice(b, 0, NPOS)` equals `b` by value; and
arbitrary out-of-range bounds are clamped into `[0, length]` rather than
rejected. -/
theorem bytes_slice_spec (b : List Nat) (hb : b.length < NPOS) :
    (∀ start stop, start ≤ stop → stop ≤ b.length →
      (bytes_slice b start stop).length = stop - start ∧
      ∀ i, i < stop - start → (bytes_slice b start stop)[i]? = b[start + i]?) ∧
    bytes_slice b 0 NPOS = b ∧
    (∀ start stop, bytes_slice b start stop =
      bytes_slice b (min start b.length)
        (if stop = NPOS then b.length else min stop b.length)) := by
  refine ⟨?_, ?_, ?_⟩
  · intro start stop h1 h2
    have hne : stop ≠ NPOS := by omega
    have e1 : min stop b.length = stop := by omega
    have e2 : min start b.length = start := by omega
    simp only [bytes_slice, if_neg hne, e1, e2]
    constructor
    · simp only [List.length_take, List.length_drop]
      omega
    · intro i hi
      rw [List.getElem?_take_of_lt (by omega), List.getElem?_drop]
  · have e0 : min 0 b.length = 0 := by omega
    simp only [bytes_slice, eq_self_iff_true, ite_true, e0, Nat.sub_zero,
      List.drop_zero, List.take_length]
  · intro start stop
    simp only [bytes_slice]
    congr 1
    · split_ifs <;> omega
    · congr 1
      omega

/-- C2 witness, Scenario A: slicing `[1,2,3,4,5]` at `[1, 4)` gives a
slice of length 3, and slicing at `[0, NPOS)` gives back the whole
buffer. -/
theorem bytes_slice_spec_witness :
    (bytes_slice [1, 2, 3, 4, 5] 1 4).length = 3 ∧
    bytes_slice [1, 2, 3, 4, 5] 0 NPOS = [1, 2, 3, 4, 5] :=
  have h := bytes_slice_spec [1, 2, 3, 4, 5] (by decide)
  ⟨(h.1 1 4 (by decide) (by decide)).1, h.2.1⟩

theorem Heap.cellAt_set_self (h : Heap) (i : Nat) (x : Option Cell) (hi : i < h.length) :
    Heap.cellAt (h.set i x) i = x := by
  induction h generalizing i with
  | nil => simp at hi
  | cons a t ih =>
    cases i with
    | zero => rfl
    | succ j => exact ih j (by simpa using hi)

theorem Heap.cellAt_lt (h : Heap) (i : Nat) (c : Cell) (hc : h.cellAt i = some c) :
    i < h.length := by
  by_contra hlt
  push_neg at hlt
  rw [Heap.cellAt, List.getD_eq_getElem?_getD, List.getElem?_eq_none (by omega)] at hc
  simp at hc

/-- C4: cloning a buffer and then releasing the clone leaves the original
buffer's visible content unchanged, and the clone reports the same size
as the original. -/
theorem clone_release_frame (h : Heap) (b : Handle)
    (hwf : ∀ i, b.cell = some i → ∃ c, h.cellAt i = some c ∧ 1 ≤ c.count) :
    readBytes (bytes_release (bytes_clone h b).1 (bytes_clone h b).2).1 b = readBytes h b ∧
    bytes_size (bytes_clone h b).2 = bytes_size b := by
  cases hbc : b.cell with
  | none =>
    constructor
    · simp only [bytes_clone, hbc, bytes_release, readBytes]
    · simp only [bytes_clone, hbc]
  | some i =>
    obtain ⟨c, hcell, hcount⟩ := hwf i hbc
    have hi : i < h.length := Heap.cellAt_lt h i c hcell
    constructor
    · simp only [bytes_clone, hbc, hcell]
      have hcell1 : Heap.cellAt (h.set i (some { c with count := c.count + 1 })) i =
          some { c with count := c.count + 1 } :=
        Heap.cellAt_set_self h i _ hi
      simp only [bytes_release, hbc, hcell1]
      split_ifs with hle hown
      · exfalso
        simp only at hle
        omega
      · exfalso
        simp only at hle
        omega
      · simp only [readBytes, hbc]
        rw [Heap.cellAt_set_self _ i _ (by simpa using hi), hcell]
        rfl
    · simp only [bytes_clone, hbc, hcell]

/-- C4 witness: a singleton heap holding `[1,2,3]` with one reference. -/
theorem clone_release_frame_witness :
    readBytes (bytes_release
        (bytes_clone [some ⟨[1, 2, 3], 1, true⟩] ⟨some 0, 0, 3⟩).1
        (bytes_clone [some ⟨[1, 2, 3], 1, true⟩] ⟨some 0, 0, 3⟩).2).1 ⟨some 0, 0, 3⟩ =
      readBytes [some ⟨[1, 2, 3], 1, true⟩] ⟨some 0, 0, 3⟩ ∧
    bytes_size (bytes_clone [some ⟨[1, 2, 3], 1, true⟩] ⟨some 0, 0, 3⟩).2 =
      bytes_size ⟨some 0, 0, 3⟩ :=
  clone_release_frame [some ⟨[1, 2, 3], 1, true⟩] ⟨some 0, 0, 3⟩
    (fun i hi => by
      simp only [Option.some.injEq] at hi
      subst hi
      exact ⟨⟨[1, 2, 3], 1, true⟩, rfl, by norm_num⟩)

theorem bytes_release_snd (h : Heap) (b : Handle) :
    (bytes_release h b).2 = emptyHandle := by
  rcases hbc : b.cell with _ | i
  · simp [bytes_release, hbc]
  · rcases hcc : Heap.cellAt h i with _ | c
    · simp [bytes_release, hbc, hcc]
    · simp only [bytes_release, hbc, hcc]
      split_ifs <;> rfl

/-- C5: releasing an empty handle is a no-op on the heap; a release
always leaves the handle in the tagged empty state, so a second release
is a no-op and frees nothing; likewise `CStr::_deallocate` frees only an
untagged heap pointer, resets the pointer to the tagged empty string, and
a second deallocation never frees again. -/
theorem release_idempotent :
    (∀ h : Heap, bytes_release h emptyHandle = (h, emptyHandle)) ∧
    (∀ (h : Heap) (b : Handle), (bytes_release h b).2 = emptyHandle ∧
      bytes_release (bytes_release h b).1 (bytes_release h b).2 =
        ((bytes_release h b).1, emptyHandle)) ∧
    (∀ h : Heap, bstr_release h emptyHandle = (h, emptyHandle)) ∧
    CStr._deallocate CPtr.emptyTagged = (CPtr.emptyTagged, false) ∧
    (∀ p : CPtr, (CStr._deallocate (CStr._deallocate p).1).2 = false) := by
  refine ⟨fun h => rfl, fun h b => ⟨bytes_release_snd h b, ?_⟩, fun h => rfl, rfl, fun p => ?_⟩
  · rw [bytes_release_snd h b]
    rfl
  · cases p <;> rfl

/-! ## Equality, CStr and move theorems -/

theorem bytesEqOp_iff (a b : List Nat) : bytesEqOp a b = true ↔ a = b := by
  simp only [bytesEqOp, memcmpEqZero, Bool.and_eq_true, beq_iff_eq]
  constructor
  · rintro ⟨hlen, htake⟩
    rw [List.take_length, hlen, List.take_length] at htake
    exact htake
  · rintro rfl
    exact ⟨rfl, rfl⟩

theorem bstrEqOp_iff (s t : List Nat) : bstrEqOp s t = true ↔ s = t := by
  simp only [bstrEqOp, memcmpEqZero, Bool.and_eq_true, beq_iff_eq]
  constructor
  · rintro ⟨hlen, htake⟩
    rw [List.take_length, hlen, List.take_length] at htake
    exact htake
  · rintro rfl
    exact ⟨rfl, rfl⟩

theorem cstrContent_cons_ne (b : Nat) (bs : List Nat) (hb : b ≠ 0) :
    cstrContent (b :: bs) = b :: cstrContent bs := by
  simp only [cstrContent, List.takeWhile_cons]
  rw [if_pos (by simpa using hb)]

theorem cstrContent_cons_zero (bs : List Nat) : cstrContent (0 :: bs) = [] := by
  simp [cstrContent, List.takeWhile_cons]

theorem bstrEqCStrOp_iff (s : List Nat) : ∀ other : List Nat, 0 ∉ s → 0 ∈ other →
    (bstrEqCStrOp s other = true ↔ s = cstrContent other) := by
  induction s with
  | nil =>
    intro other _ hm
    rcases other with _ | ⟨b, bs⟩
    · simp at hm
    · simp only [bstrEqCStrOp, List.length_nil, cstrncmpEqZero, Bool.true_and,
        List.getD_cons_zero]
      by_cases hb : b = 0
      · subst hb
        simp [cstrContent_cons_zero]
      · rw [cstrContent_cons_ne b bs hb]
        simp [hb]
  | cons a as ih =>
    intro other h0 hm
    have ha : a ≠ 0 := fun h => h0 (by simp [h])
    have h0as : 0 ∉ as := fun h => h0 (by simp [h])
    rcases other with _ | ⟨b, bs⟩
    · simp at hm
    · simp only [bstrEqCStrOp, List.length_cons, cstrncmpEqZero, List.getD_cons_succ]
      by_cases hab : a = b
      · subst hab
        rw [if_pos rfl, if_neg ha]
        have hm2 : 0 ∈ bs := by
          rcases List.mem_cons.mp hm with h | h
          · exact absurd h.symm ha
          · exact h
        rw [cstrContent_cons_ne a bs ha]
        simp only [List.cons.injEq, true_and]
        exact ih bs h0as hm2
      · rw [if_neg hab]
        simp only [Bool.false_and, false_iff]
        by_cases hb : b = 0
        · subst hb
          rw [cstrContent_cons_zero]
          simp
        · rw [cstrContent_cons_ne b bs hb]
          simp [hab]

/-- C7 (amended): Bytes-to-Bytes and ByteString-to-ByteString equality is
byte-wise value equality for arbitrary contents; the ByteString-to-C-string
comparison is value equality against the C string's content provided the
ByteString contains no NUL byte (for a NUL-containing ByteString the
`strncmp`-based comparison stops at the common NUL and can report equal
handles of different content). -/
theorem equality_ops_spec :
    (∀ a b : List Nat, bytesEqOp a b = true ↔ a = b) ∧
    (∀ s t : List Nat, bstrEqOp s t = true ↔ s = t) ∧
    (∀ s other : List Nat, 0 ∉ s → 0 ∈ other →
      (bstrEqCStrOp s other = true ↔ s = cstrContent other)) :=
  ⟨bytesEqOp_iff, bstrEqOp_iff, fun s other h0 hm => bstrEqCStrOp_iff s other h0 hm⟩

/-- C7 witness: equal byte buffers compare equal, and a NUL-free string
compares equal to the C string with the same content. -/
theorem equality_ops_spec_witness :
    bytesEqOp [1, 2] [1, 2] = true ∧ bstrEqCStrOp [97, 98] [97, 98, 0] = true :=
  ⟨(equality_ops_spec.1 [1, 2] [1, 2]).mpr rfl,
   (equality_ops_spec.2.2 [97, 98] [97, 98, 0] (by decide) (by decide)).mpr (by decide)⟩

/-- C7 counterexample: the one-byte string `[0x00]` compares equal to the
empty C string (memory `[0, 0]`), although the lengths (1 vs 0) and
contents differ, so the comparison is not value equality for strings
containing NUL bytes. -/
theorem equality_ops_counterexample :
    bstrEqCStrOp [0] [0, 0] = true ∧ cstrContent [0, 0] ≠ [0] := by decide

theorem take_cstrlen (mem : List Nat) : mem.take (cstrlen mem) = cstrContent mem := by
  induction mem with
  | nil => rfl
  | cons b bs ih =>
    by_cases hb : b = 0
    · subst hb
      simp [cstrlen, cstrContent_cons_zero]
    · rw [cstrlen, cstrContent_cons_ne b bs hb, List.length_cons,
        List.take_succ_cons, ← cstrlen, ih]

/-- C8: passing `len == NPOS` to a length-taking `from` construction
computes the effective length by scanning for the zero terminator: the
result equals the one obtained by passing the scanned length `strlen`
explicitly, both for `CStr::_allocate` and for `bstr_from_static`. -/
theorem npos_scan_spec :
    (∀ mem : List Nat, CStr._allocate (some mem) NPOS =
      CStr._allocate (some mem) (cstrlen mem)) ∧
    (∀ mem : List Nat, bstr_from_static mem NPOS =
      bstr_from_static mem (cstrlen mem)) := by
  constructor
  · intro mem
    simp only [CStr._allocate, eq_self_iff_true, ite_true, ite_self]
  · intro mem
    simp only [bstr_from_static, eq_self_iff_true, ite_true]
    by_cases hn : cstrlen mem = NPOS
    · rw [if_pos hn]
    · rw [if_neg hn, take_cstrlen]

theorem getLast?_append_single (l : List Nat) (a : Nat) : (l ++ [a]).getLast? = some a := by
  induction l with
  | nil => rfl
  | cons x xs ih =>
    rw [List.cons_append, List.getLast?_cons, ih]
    cases xs <;> rfl

/-- C9: `CStr` always holds a non-null pointer to a null-terminated
sequence: `_allocate` returns the tagged static empty pointer for a NULL
source or a zero length (so empty construction/copy/destruction never
touches the heap), never returns the null pointer, always yields a
null-terminated buffer, and `_deallocate` frees exactly the untagged heap
pointers. -/
theorem cstr_invariants :
    (∀ len, CStr._allocate none len = CPtr.emptyTagged) ∧
    (∀ mem : List Nat, CStr._allocate (some mem) 0 = CPtr.emptyTagged) ∧
    (∀ (s : Option (List Nat)) (len : Nat), CStr._allocate s len ≠ CPtr.null) ∧
    (∀ (s : Option (List Nat)) (len : Nat), nullTerminated (CStr._allocate s len) = true) ∧
    CStr._allocate (some [0]) NPOS = CPtr.emptyTagged ∧
    (∀ d, CStr._deallocate (CPtr.heap d) = (CPtr.emptyTagged, true)) ∧
    (∀ p, CPtr.tagged p = true → CStr._deallocate p = (p, false)) := by
  refine ⟨fun len => rfl, ?_, ?_, ?_, ?_, fun d => rfl, ?_⟩
  · intro mem
    simp only [CStr._allocate]
    rw [if_neg (show (0 : Nat) ≠ NPOS from by simp [NPOS])]
    simp
  · intro s len
    cases s with
    | none => simp [CStr._allocate]
    | some mem =>
      simp only [CStr._allocate]
      split_ifs <;> simp
  · intro s len
    cases s with
    | none => rfl
    | some mem =>
      simp only [CStr._allocate]
      split_ifs <;> simp [nullTerminated, getLast?_append_single]
  · decide
  · intro p hp
    cases p with
    | null => exact absurd hp (by simp [CPtr.tagged])
    | emptyTagged => rfl
    | heap d => exact absurd hp (by simp [CPtr.tagged])

/-- C9 witness: allocating from a NULL pointer yields the tagged empty
pointer, and deallocating the tagged empty pointer frees nothing. -/
theorem cstr_invariants_witness :
    CStr._allocate none 5 = CPtr.emptyTagged ∧
    CStr._deallocate CPtr.emptyTagged = (CPtr.emptyTagged, false) :=
  ⟨cstr_invariants.1 5, cstr_invariants.2.2.2.2.2.2 CPtr.emptyTagged rfl⟩

/-- C10: the move constructors take over the source's handle and leave
the source holding the canonical empty value; move assignment between
distinct objects swaps the two handles; a self move-assignment leaves the
value unchanged; and none of these operations touches the heap, so no
handle is released by the move operations themselves. -/
theorem move_semantics :
    (∀ (st : Heap) (other : Handle), Bytes.moveCtor st other = (st, other, emptyHandle)) ∧
    (∀ (st : Heap) (a b : Handle), Bytes.moveAssign st a b false = (st, b, a)) ∧
    (∀ (st : Heap) (a : Handle), Bytes.moveAssign st a a true = (st, a, a)) ∧
    (∀ (st : Heap) (other : Handle),
      ByteString.moveCtor st other = (st, other, emptyHandle)) ∧
    (∀ (st : Heap) (a b : Handle), ByteString.moveAssign st a b false = (st, b, a)) ∧
    (∀ (st : Heap) (a : Handle), ByteString.moveAssign st a a true = (st, a, a)) :=
  ⟨fun _ _ => rfl, fun _ _ _ => rfl, fun _ _ => rfl,
   fun _ _ => rfl, fun _ _ _ => rfl, fun _ _ => rfl⟩
